import Mathlib

/-!
Shallow embedding of the invoice computation core of `src/lib/invoice.ts`:
`calculateTotals`, `normalizeDescText`, `descToLines`, `paymentIntegrityStatus`
and the display helper `formatRupiah` from `src/lib/format.ts`.

Strings are modelled as `List Char`; JavaScript numbers are modelled as `ℚ`
(the claims under scrutiny concern exact arithmetic, clamping, flooring and
ordering, none of which depend on binary floating point rounding).
`Math.floor` is `Int.floor`, `Math.max` is `max`, `Math.abs` is `|·|`.
Optional string arguments are `Option (List Char)`.
-/

namespace Invoice

/-- The set of characters matched by JavaScript's `\s` regex class, which is
also the set of characters removed by `String.prototype.trim` (ECMAScript
WhiteSpace ∪ LineTerminator). -/
def jsIsWS (c : Char) : Bool :=
  c = ' ' || c = '\t' || c = '\n' || c = '\x0b' || c = '\x0c' || c = '\r' ||
  c = '\u00A0' || c = '\u1680' || ('\u2000' ≤ c && c ≤ '\u200A') ||
  c = '\u2028' || c = '\u2029' || c = '\u202F' || c = '\u205F' ||
  c = '\u3000' || c = '\uFEFF'

/-- `leadsWith pat l` is true when `pat` is an initial run of `l`. -/
def leadsWith : List Char → List Char → Bool
  | [], _ => true
  | _ :: _, [] => false
  | p :: ps, c :: cs => p == c && leadsWith ps cs

/-- `hasSeq pat l` is true when `pat` occurs contiguously somewhere in `l`. -/
def hasSeq (pat : List Char) : List Char → Bool
  | [] => leadsWith pat []
  | c :: rest => leadsWith pat (c :: rest) || hasSeq pat rest

/-- Drop JavaScript whitespace from the front of a character list. -/
def dropWS (l : List Char) : List Char := l.dropWhile jsIsWS

/-- `String.prototype.trimStart`. -/
def trimL (l : List Char) : List Char := dropWS l

/-- `String.prototype.trimEnd`. -/
def trimR (l : List Char) : List Char := (dropWS l.reverse).reverse

/-- `String.prototype.trim`. -/
def trim (l : List Char) : List Char := trimR (trimL l)

/-- Global left-to-right replacement of the fixed nonempty token `pat` by the
single character `r`, as JavaScript `s.replace(/pat/g, r)` performs for a
literal pattern: scan left to right, on a match emit `r` and resume after the
matched text, otherwise emit the current character and advance by one.
(For the scan to terminate the skip is written `rest.drop (pat.length - 1)`,
which agrees with resuming after the match for every nonempty `pat`; all
patterns used in the source are nonempty.) -/
def replTok (pat : List Char) (r : Char) : List Char → List Char
  | [] => []
  | c :: rest =>
    if leadsWith pat (c :: rest) then r :: replTok pat r (rest.drop (pat.length - 1))
    else c :: replTok pat r rest
termination_by l => l.length
decreasing_by
  · simp only [List.length_drop, List.length_cons]
    omega
  · simp only [List.length_cons]
    omega

/-- `raw.replace(/&lt;/g, '<')` (line 45 of `src/lib/invoice.ts`). -/
def decodeLt (l : List Char) : List Char := replTok ['&', 'l', 't', ';'] '<' l

/-- `.replace(/&gt;/g, '>')` (line 45 of `src/lib/invoice.ts`). -/
def decodeGt (l : List Char) : List Char := replTok ['&', 'g', 't', ';'] '>' l

/-- `.replace(/\r\n/g, '\n')` (line 60 of `src/lib/invoice.ts`). -/
def replaceCRLF (l : List Char) : List Char := replTok ['\r', '\n'] '\n' l

/-- `.replace(/\r/g, '\n')` (line 60 of `src/lib/invoice.ts`). -/
def replaceCR (l : List Char) : List Char :=
  l.map (fun c => if c = '\r' then '\n' else c)

/-- The test `s[i] === '<' && s.slice(i, i + 3).toLowerCase() === '<br'`
applied to the suffix of `s` starting at `i` (line 48 of
`src/lib/invoice.ts`).  The slice has three characters exactly when at least
three characters remain; `'<'.toLowerCase()` is `'<'`, and the only
characters whose lower-case form is `b` resp. `r` are `b`/`B` resp. `r`/`R`,
so ASCII `Char.toLower` is faithful here. -/
def isBrOpen : List Char → Bool
  | '<' :: b :: r :: _ => b.toLower == 'b' && r.toLower == 'r'
  | _ => false

/-- The inner loop `let j = i + 3; while (j < s.length && s[j] !== '>') j += 1`
(lines 49–50 of `src/lib/invoice.ts`): looks for the first `'>'` and returns
the remainder after it, or `none` when the string ends first. -/
def findGt : List Char → Option (List Char)
  | [] => none
  | c :: rest => if c = '>' then some rest else findGt rest

theorem findGt_length {l a : List Char} (h : findGt l = some a) :
    a.length < l.length := by
  induction l with
  | nil => simp [findGt] at h
  | cons c rest ih =>
    by_cases hc : c = '>'
    · simp [findGt, hc] at h
      subst h
      simp
    · simp [findGt, hc] at h
      have := ih h
      simp
      omega

/-- The character scanner of `normalizeDescText` (lines 46–59 of
`src/lib/invoice.ts`): whenever the current position opens a `<br` tag and a
closing `'>'` exists later, emit a single `'\n'` and resume after that `'>'`;
otherwise emit the current character and advance by one. -/
def brScan : List Char → List Char
  | [] => []
  | c :: rest =>
    if isBrOpen (c :: rest) then
      match hf : findGt (rest.drop 2) with
      | some after => '\n' :: brScan after
      | none => c :: brScan rest
    else c :: brScan rest
termination_by l => l.length
decreasing_by
  · have h1 := findGt_length hf
    have h2 : (rest.drop 2).length ≤ rest.length := by
      simp only [List.length_drop]
      omega
    simp only [List.length_cons]
    omega
  · simp only [List.length_cons]
    omega
  · simp only [List.length_cons]
    omega

/-- `normalizeDescText` (lines 43–61 of `src/lib/invoice.ts`). -/
def normalizeDescText : Option (List Char) → List Char
  | none => []
  | some raw =>
    if raw = [] then []
    else trim (replaceCR (replaceCRLF (brScan (decodeGt (decodeLt raw)))))

/-- `String.prototype.split('\n')` on a character list. -/
def splitNL : List Char → List (List Char)
  | [] => [[]]
  | c :: rest =>
    if c = '\n' then [] :: splitNL rest
    else
      match splitNL rest with
      | [] => [[c]]
      | h :: t => (c :: h) :: t

/-- `line.replace(/^[-•·]\s*/, '')` (line 70 of `src/lib/invoice.ts`): remove
one leading bullet marker together with the whitespace that follows it; leave
the line unchanged when its first character is not a marker. -/
def stripBullet : List Char → List Char
  | [] => []
  | c :: rest =>
    if c = '-' ∨ c = '•' ∨ c = '·' then dropWS rest else c :: rest

/-- The body of the `forEach` in `descToLines` (lines 68–72 of
`src/lib/invoice.ts`), as the value pushed for one already-trimmed segment:
`none` when nothing is pushed. -/
def procLine (line : List Char) : Option (List Char) :=
  if line = [] then none
  else
    let cleaned := trim (stripBullet line)
    if cleaned = [] then none else some cleaned

/-- `descToLines` (lines 63–74 of `src/lib/invoice.ts`): split on `'\n'`,
trim each segment, then run the push loop. -/
def descToLines (desc : Option (List Char)) : List (List Char) :=
  let base := match desc with | none => [] | some s => s
  ((splitNL base).map trim).foldl
    (fun lines line =>
      match procLine line with
      | none => lines
      | some cleaned => lines ++ [cleaned]) []

/-- The `InvoiceItem` record of `src/lib/invoice.ts` (lines 3–10). -/
structure InvoiceItem where
  id : List Char
  rowId : List Char
  description : List Char
  details : Option (List Char)
  price : ℚ
  qty : ℚ
deriving DecidableEq, Repr

/-- The record returned by `calculateTotals`. -/
structure TotalsResult where
  subtotal : ℚ
  grandTotal : ℚ
deriving DecidableEq, Repr

/-- `calculateTotals` (lines 26–31 of `src/lib/invoice.ts`). -/
def calculateTotals (items : List InvoiceItem) (cashback : ℚ) : TotalsResult :=
  let subtotal := items.foldl (fun acc item => acc + item.price * max 1 item.qty) 0
  let safeCashback := max 0 cashback
  { subtotal := subtotal, grandTotal := max 0 (subtotal - safeCashback) }

/-- JavaScript `Math.round` on a rational: round half toward positive
infinity. -/
def jsRound (q : ℚ) : ℤ := ⌊q + 1 / 2⌋

/-- Insert the `id-ID` thousands separator `'.'` into a digit list given in
reverse order. -/
def grpRev : List Char → List Char
  | d1 :: d2 :: d3 :: d4 :: rest => d1 :: d2 :: d3 :: '.' :: grpRev (d4 :: rest)
  | l => l

/-- `intVal.toLocaleString('id-ID')`: decimal digits in groups of three
separated by `'.'`, with a leading `'-'` for negative values. -/
def idLocaleString (n : ℤ) : List Char :=
  (if n < 0 then ['-'] else []) ++ (grpRev (toString n.natAbs).toList.reverse).reverse

/-- `formatRupiah` (`src/lib/format.ts`).  `Number.isFinite` is always true
in the rational model, so the coercion-to-zero branch does not arise. -/
def formatRupiah (value : ℚ) : List Char :=
  "Rp ".toList ++ idLocaleString (jsRound value)

/-- The status strings returned by `paymentIntegrityStatus`. -/
inductive PayStatus where
  | INFO
  | BALANCED
  | UNALLOCATED
  | OVER
deriving DecidableEq, Repr

/-- The record returned by `paymentIntegrityStatus`. -/
structure IntegrityResult where
  status : PayStatus
  message : List Char
  balance : ℚ
deriving DecidableEq, Repr

/-- `paymentIntegrityStatus` (lines 76–84 of `src/lib/invoice.ts`). -/
def paymentIntegrityStatus (grandTotal dp1 t2 t3 full : ℚ) : IntegrityResult :=
  let totalScheduled := dp1 + t2 + t3 + full
  let balance : ℚ := (⌊grandTotal⌋ : ℚ) - totalScheduled
  if grandTotal ≤ 0 then
    ⟨.INFO, "Add items to cart to calculate payments.".toList, balance⟩
  else if balance = 0 then
    ⟨.BALANCED, "Schedule matches Grand Total.".toList, balance⟩
  else if balance > 0 then
    ⟨.UNALLOCATED, formatRupiah balance ++ " remaining.".toList, balance⟩
  else
    ⟨.OVER, formatRupiah |balance| ++ " excess.".toList, balance⟩

/-- Case-insensitive occurrence of a `<br` opener anywhere in the text. -/
def hasBr : List Char → Bool
  | [] => false
  | c :: rest => isBrOpen (c :: rest) || hasBr rest

/-! ### Basic facts about `leadsWith` and `hasSeq` -/

theorem hasSeq_nil_pat (l : List Char) : hasSeq [] l = true := by
  cases l <;> simp [hasSeq, leadsWith]

theorem leadsWith_append {q m : List Char} (t : List Char)
    (h : leadsWith q m = true) : leadsWith q (m ++ t) = true := by
  induction q generalizing m with
  | nil => simp [leadsWith]
  | cons p ps ih =>
    cases m with
    | nil => simp [leadsWith] at h
    | cons c cs =>
      simp only [leadsWith, Bool.and_eq_true, beq_iff_eq] at h
      simp only [List.cons_append, leadsWith, Bool.and_eq_true, beq_iff_eq]
      exact ⟨h.1, ih h.2⟩

theorem hasSeq_append_left {q l : List Char} (t : List Char)
    (h : hasSeq q l = true) : hasSeq q (t ++ l) = true := by
  induction t with
  | nil => simpa using h
  | cons c cs ih => simp [hasSeq, ih]

theorem hasSeq_append_right {q m : List Char} (t : List Char)
    (h : hasSeq q m = true) : hasSeq q (m ++ t) = true := by
  induction m with
  | nil =>
    cases q with
    | nil => exact hasSeq_nil_pat t
    | cons p ps => simp [hasSeq, leadsWith] at h
  | cons c cs ih =>
    simp only [hasSeq, Bool.or_eq_true] at h
    rcases h with h | h
    · simp only [List.cons_append, hasSeq, Bool.or_eq_true]
      exact Or.inl (leadsWith_append t h)
    · simp only [List.cons_append, hasSeq, Bool.or_eq_true]
      exact Or.inr (ih h)

theorem hasSeq_of_suffix {q l₁ l₂ : List Char} (hs : l₁ <:+ l₂)
    (h : hasSeq q l₁ = true) : hasSeq q l₂ = true := by
  obtain ⟨t, rfl⟩ := hs
  exact hasSeq_append_left t h

theorem hasSeq_of_start {q l₁ l₂ : List Char} (hs : l₁ <+: l₂)
    (h : hasSeq q l₁ = true) : hasSeq q l₂ = true := by
  obtain ⟨t, rfl⟩ := hs
  exact hasSeq_append_right t h

theorem hasSeq_mem_head {p : Char} {ps l : List Char}
    (h : hasSeq (p :: ps) l = true) : p ∈ l := by
  induction l with
  | nil => simp [hasSeq, leadsWith] at h
  | cons c rest ih =>
    simp only [hasSeq, Bool.or_eq_true] at h
    rcases h with h | h
    · simp only [leadsWith, Bool.and_eq_true, beq_iff_eq] at h
      exact h.1 ▸ List.mem_cons_self p rest
    · exact List.mem_cons_of_mem c (ih h)

theorem hasSeq_false_of_not_mem {p : Char} {ps l : List Char}
    (h : p ∉ l) : hasSeq (p :: ps) l = false := by
  cases hv : hasSeq (p :: ps) l with
  | false => rfl
  | true => exact absurd (hasSeq_mem_head hv) h

/-! ### Facts about whitespace trimming -/

theorem dropWS_head {l : List Char} {c : Char} {t : List Char}
    (h : dropWS l = c :: t) : jsIsWS c = false := by
  induction l with
  | nil => simp [dropWS] at h
  | cons a rest ih =>
    rw [dropWS, List.dropWhile_cons] at h
    by_cases ha : jsIsWS a = true
    · rw [if_pos ha] at h
      exact ih h
    · rw [if_neg ha] at h
      cases h
      simpa using ha

theorem dropWS_idem (l : List Char) : dropWS (dropWS l) = dropWS l := by
  cases h : dropWS l with
  | nil => simp [dropWS]
  | cons c t =>
    have hc := dropWS_head h
    rw [dropWS, List.dropWhile_cons, if_neg (by simp [hc])]

theorem trimL_suffix (l : List Char) : trimL l <:+ l :=
  ⟨l.takeWhile jsIsWS, List.takeWhile_append_dropWhile jsIsWS l⟩

theorem trimR_start (l : List Char) : trimR l <+: l := by
  have hs : dropWS l.reverse <:+ l.reverse :=
    ⟨l.reverse.takeWhile jsIsWS, List.takeWhile_append_dropWhile jsIsWS l.reverse⟩
  have := List.reverse_prefix.mpr hs
  simpa [trimR] using this

theorem mem_of_mem_trim {c : Char} {l : List Char} (h : c ∈ trim l) : c ∈ l :=
  (trimL_suffix l).subset ((trimR_start (trimL l)).subset h)

theorem hasSeq_of_trim {q l : List Char} (h : hasSeq q (trim l) = true) :
    hasSeq q l = true :=
  hasSeq_of_suffix (trimL_suffix l) (hasSeq_of_start (trimR_start (trimL l)) h)

theorem trimR_idem (l : List Char) : trimR (trimR l) = trimR l := by
  unfold trimR
  rw [List.reverse_reverse, dropWS_idem]

theorem trimL_trimR_of_trimL {z : List Char} (hz : trimL z = z) :
    trimL (trimR z) = trimR z := by
  cases hc : trimR z with
  | nil => simp [trimL, dropWS]
  | cons c w =>
    have hp : trimR z <+: z := trimR_start z
    rw [hc] at hp
    obtain ⟨t, ht⟩ := hp
    have hcz : jsIsWS c = false := by
      by_contra hws
      simp only [Bool.not_eq_false] at hws
      have h1 : trimL z = (w ++ t).dropWhile jsIsWS := by
        rw [← ht]
        simp [trimL, dropWS, List.dropWhile_cons, hws]
      rw [hz] at h1
      have hlen : z.length ≤ (w ++ t).length := by
        rw [h1]
        exact (List.dropWhile_suffix jsIsWS).sublist.length_le
      rw [← ht] at hlen
      simp at hlen
    rw [trimL, dropWS, List.dropWhile_cons, if_neg (by simp [hcz])]

theorem trimL_idem (l : List Char) : trimL (trimL l) = trimL l :=
  dropWS_idem l

theorem trim_idem (l : List Char) : trim (trim l) = trim l := by
  unfold trim
  rw [trimL_trimR_of_trimL (trimL_idem l), trimR_idem]

theorem trim_has_non_ws {w : List Char} (h : trim w ≠ []) :
    ∃ c ∈ trim w, jsIsWS c = false := by
  unfold trim trimR at h ⊢
  cases hd : dropWS (trimL w).reverse with
  | nil => rw [hd] at h; simp at h
  | cons d u =>
    refine ⟨d, ?_, dropWS_head hd⟩
    simp

/-! ### Facts about `replTok` -/

theorem replTok_id {pat : List Char} (r : Char) {l : List Char}
    (h : hasSeq pat l = false) : replTok pat r l = l := by
  induction l using replTok.induct pat r with
  | case1 => simp [replTok]
  | case2 c rest hg ih =>
    exfalso
    simp only [hasSeq, Bool.or_eq_false_iff] at h
    rw [hg] at h
    exact Bool.noConfusion h.1
  | case3 c rest hg ih =>
    simp only [hasSeq, Bool.or_eq_false_iff] at h
    rw [replTok, if_neg hg, ih h.2]

theorem leadsWith_replTok {pat : List Char} {r : Char} {q l : List Char}
    (hr : r ∉ q) (h : leadsWith q (replTok pat r l) = true) :
    leadsWith q l = true := by
  induction l using replTok.induct pat r generalizing q with
  | case1 => simpa [replTok] using h
  | case2 c rest hg ih =>
    rw [replTok, if_pos hg] at h
    cases q with
    | nil => simp [leadsWith]
    | cons x xs =>
      simp only [leadsWith, Bool.and_eq_true, beq_iff_eq] at h
      exfalso
      apply hr
      rw [← h.1]
      exact List.mem_cons_self x xs
  | case3 c rest hg ih =>
    rw [replTok, if_neg hg] at h
    cases q with
    | nil => simp [leadsWith]
    | cons x xs =>
      simp only [leadsWith, Bool.and_eq_true, beq_iff_eq] at h ⊢
      exact ⟨h.1, ih (fun hm => hr (List.mem_cons_of_mem x hm)) h.2⟩

theorem replTok_no_self {p r : Char} {ps : List Char} (hr : r ∉ p :: ps)
    (l : List Char) : hasSeq (p :: ps) (replTok (p :: ps) r l) = false := by
  induction l using replTok.induct (p :: ps) r with
  | case1 => simp [replTok, hasSeq, leadsWith]
  | case2 c rest hg ih =>
    rw [replTok, if_pos hg]
    have hx : ¬(p = r) := fun he => hr (by rw [he]; exact List.mem_cons_self r ps)
    simp only [hasSeq, Bool.or_eq_false_iff]
    constructor
    · simp only [leadsWith, Bool.and_eq_false_iff]
      exact Or.inl (by simpa using hx)
    · exact ih
  | case3 c rest hg ih =>
    rw [replTok, if_neg hg]
    have h1 : leadsWith (p :: ps) (c :: replTok (p :: ps) r rest) = false := by
      cases hv : leadsWith (p :: ps) (c :: replTok (p :: ps) r rest) with
      | false => rfl
      | true =>
        exfalso
        simp only [leadsWith, Bool.and_eq_true, beq_iff_eq] at hv
        have hxs : r ∉ ps := fun hm => hr (List.mem_cons_of_mem p hm)
        have h2 := leadsWith_replTok hxs hv.2
        apply hg
        simp only [leadsWith, Bool.and_eq_true, beq_iff_eq]
        exact ⟨hv.1, h2⟩
    simp only [hasSeq, Bool.or_eq_false_iff]
    exact ⟨h1, ih⟩

theorem replTok_no_create {pat q : List Char} {r : Char} (hr : r ∉ q)
    {l : List Char} (h : hasSeq q l = false) :
    hasSeq q (replTok pat r l) = false := by
  obtain ⟨x, xs, rfl⟩ : ∃ x xs, q = x :: xs := by
    cases q with
    | nil => rw [hasSeq_nil_pat] at h; exact Bool.noConfusion h
    | cons x xs => exact ⟨x, xs, rfl⟩
  induction l using replTok.induct pat r with
  | case1 => simpa [replTok] using h
  | case2 c rest hg ih =>
    rw [replTok, if_pos hg]
    simp only [hasSeq, Bool.or_eq_false_iff]
    constructor
    · have hx : ¬(x = r) := fun he => hr (by rw [he]; exact List.mem_cons_self r xs)
      simp only [leadsWith, Bool.and_eq_false_iff]
      exact Or.inl (by simpa using hx)
    · apply ih
      cases hv : hasSeq (x :: xs) (rest.drop (pat.length - 1)) with
      | false => rfl
      | true =>
        exfalso
        have hs : rest.drop (pat.length - 1) <:+ c :: rest :=
          (List.drop_suffix _ rest).trans (List.suffix_cons c rest)
        have := hasSeq_of_suffix hs hv
        rw [this] at h
        exact Bool.noConfusion h
  | case3 c rest hg ih =>
    rw [replTok, if_neg hg]
    simp only [hasSeq, Bool.or_eq_false_iff] at h
    have h1 : leadsWith (x :: xs) (c :: replTok pat r rest) = false := by
      cases hv : leadsWith (x :: xs) (c :: replTok pat r rest) with
      | false => rfl
      | true =>
        exfalso
        simp only [leadsWith, Bool.and_eq_true, beq_iff_eq] at hv
        have hxs : r ∉ xs := fun hm => hr (List.mem_cons_of_mem x hm)
        have h2 := leadsWith_replTok hxs hv.2
        have h3 : leadsWith (x :: xs) (c :: rest) = true := by
          simp only [leadsWith, Bool.and_eq_true, beq_iff_eq]
          exact ⟨hv.1, h2⟩
        rw [h3] at h
        exact Bool.noConfusion h.1
    simp only [hasSeq, Bool.or_eq_false_iff]
    exact ⟨h1, ih h.2⟩

/-! ### Facts about `findGt` and `brScan` -/

theorem findGt_none {l : List Char} (h : '>' ∉ l) : findGt l = none := by
  induction l with
  | nil => rfl
  | cons c rest ih =>
    by_cases hc : c = '>'
    · exfalso
      rw [hc] at h
      simp at h
    · rw [findGt, if_neg hc]
      exact ih (fun hm => h (List.mem_cons_of_mem c hm))

theorem findGt_suffix {l a : List Char} (h : findGt l = some a) : a <:+ l := by
  induction l with
  | nil => simp [findGt] at h
  | cons c rest ih =>
    by_cases hc : c = '>'
    · rw [findGt, if_pos hc] at h
      injection h with h
      rw [← h]
      exact List.suffix_cons c rest
    · rw [findGt, if_neg hc] at h
      exact (ih h).trans (List.suffix_cons c rest)

theorem findGt_append {attrs : List Char} (rest : List Char) (h : '>' ∉ attrs) :
    findGt (attrs ++ '>' :: rest) = some rest := by
  induction attrs with
  | nil => simp [findGt]
  | cons c t ih =>
    have hc : ¬(c = '>') := fun he => by rw [he] at h; simp at h
    rw [List.cons_append, findGt, if_neg hc]
    exact ih (fun hm => h (List.mem_cons_of_mem c hm))

theorem brScan_id_of_no_br {l : List Char} (h : hasBr l = false) :
    brScan l = l := by
  induction l using brScan.induct with
  | case1 => simp [brScan]
  | case2 c rest hg after hf ih =>
    exfalso
    simp only [hasBr, Bool.or_eq_false_iff] at h
    rw [hg] at h
    exact Bool.noConfusion h.1
  | case3 c rest hg hf ih =>
    exfalso
    simp only [hasBr, Bool.or_eq_false_iff] at h
    rw [hg] at h
    exact Bool.noConfusion h.1
  | case4 c rest hg ih =>
    simp only [hasBr, Bool.or_eq_false_iff] at h
    rw [brScan, if_neg hg, ih h.2]

theorem brScan_id_of_no_gt {l : List Char} (h : '>' ∉ l) : brScan l = l := by
  induction l using brScan.induct with
  | case1 => simp [brScan]
  | case2 c rest hg after hf ih =>
    exfalso
    have hd : '>' ∉ rest.drop 2 := fun hm =>
      h (List.mem_cons_of_mem c (List.drop_subset 2 rest hm))
    rw [findGt_none hd] at hf
    exact Option.noConfusion hf
  | case3 c rest hg hf ih =>
    have ht : '>' ∉ rest := fun hm => h (List.mem_cons_of_mem c hm)
    rw [brScan, if_pos hg, hf, ih ht]
  | case4 c rest hg ih =>
    have ht : '>' ∉ rest := fun hm => h (List.mem_cons_of_mem c hm)
    rw [brScan, if_neg hg, ih ht]

theorem leadsWith_brScan {q l : List Char} (hr : '\n' ∉ q)
    (h : leadsWith q (brScan l) = true) : leadsWith q l = true := by
  induction l using brScan.induct generalizing q with
  | case1 => simpa [brScan] using h
  | case2 c rest hg after hf ih =>
    rw [brScan, if_pos hg, hf] at h
    cases q with
    | nil => simp [leadsWith]
    | cons x xs =>
      simp only [leadsWith, Bool.and_eq_true, beq_iff_eq] at h
      exfalso
      apply hr
      rw [← h.1]
      exact List.mem_cons_self x xs
  | case3 c rest hg hf ih =>
    rw [brScan, if_pos hg, hf] at h
    cases q with
    | nil => simp [leadsWith]
    | cons x xs =>
      simp only [leadsWith, Bool.and_eq_true, beq_iff_eq] at h ⊢
      exact ⟨h.1, ih (fun hm => hr (List.mem_cons_of_mem x hm)) h.2⟩
  | case4 c rest hg ih =>
    rw [brScan, if_neg hg] at h
    cases q with
    | nil => simp [leadsWith]
    | cons x xs =>
      simp only [leadsWith, Bool.and_eq_true, beq_iff_eq] at h ⊢
      exact ⟨h.1, ih (fun hm => hr (List.mem_cons_of_mem x hm)) h.2⟩

theorem brScan_no_create {q : List Char} (hr : '\n' ∉ q) {l : List Char}
    (h : hasSeq q l = false) : hasSeq q (brScan l) = false := by
  obtain ⟨x, xs, rfl⟩ : ∃ x xs, q = x :: xs := by
    cases q with
    | nil => rw [hasSeq_nil_pat] at h; exact Bool.noConfusion h
    | cons x xs => exact ⟨x, xs, rfl⟩
  induction l using brScan.induct with
  | case1 => simpa [brScan] using h
  | case2 c rest hg after hf ih =>
    rw [brScan, if_pos hg, hf]
    simp only [hasSeq, Bool.or_eq_false_iff]
    constructor
    · have hx : ¬(x = '\n') := fun he =>
        hr (by rw [he]; exact List.mem_cons_self '\n' xs)
      simp only [leadsWith, Bool.and_eq_false_iff]
      exact Or.inl (by simpa using hx)
    · apply ih
      cases hv : hasSeq (x :: xs) after with
      | false => rfl
      | true =>
        exfalso
        have hs : after <:+ c :: rest :=
          ((findGt_suffix hf).trans (List.drop_suffix 2 rest)).trans
            (List.suffix_cons c rest)
        have := hasSeq_of_suffix hs hv
        rw [this] at h
        exact Bool.noConfusion h
  | case3 c rest hg hf ih =>
    rw [brScan, if_pos hg, hf]
    simp only [hasSeq, Bool.or_eq_false_iff] at h
    have h1 : leadsWith (x :: xs) (c :: brScan rest) = false := by
      cases hv : leadsWith (x :: xs) (c :: brScan rest) with
      | false => rfl
      | true =>
        exfalso
        simp only [leadsWith, Bool.and_eq_true, beq_iff_eq] at hv
        have hxs : '\n' ∉ xs := fun hm => hr (List.mem_cons_of_mem x hm)
        have h2 := leadsWith_brScan hxs hv.2
        have h3 : leadsWith (x :: xs) (c :: rest) = true := by
          simp only [leadsWith, Bool.and_eq_true, beq_iff_eq]
          exact ⟨hv.1, h2⟩
        rw [h3] at h
        exact Bool.noConfusion h.1
    simp only [hasSeq, Bool.or_eq_false_iff]
    exact ⟨h1, ih h.2⟩
  | case4 c rest hg ih =>
    rw [brScan, if_neg hg]
    simp only [hasSeq, Bool.or_eq_false_iff] at h
    have h1 : leadsWith (x :: xs) (c :: brScan rest) = false := by
      cases hv : leadsWith (x :: xs) (c :: brScan rest) with
      | false => rfl
      | true =>
        exfalso
        simp only [leadsWith, Bool.and_eq_true, beq_iff_eq] at hv
        have hxs : '\n' ∉ xs := fun hm => hr (List.mem_cons_of_mem x hm)
        have h2 := leadsWith_brScan hxs hv.2
        have h3 : leadsWith (x :: xs) (c :: rest) = true := by
          simp only [leadsWith, Bool.and_eq_true, beq_iff_eq]
          exact ⟨hv.1, h2⟩
        rw [h3] at h
        exact Bool.noConfusion h.1
    simp only [hasSeq, Bool.or_eq_false_iff]
    exact ⟨h1, ih h.2⟩

theorem brScan_br {b r : Char} (attrs rest : List Char)
    (hb : b.toLower = 'b') (hr2 : r.toLower = 'r') (hgt : '>' ∉ attrs) :
    brScan ('<' :: b :: r :: (attrs ++ '>' :: rest)) = '\n' :: brScan rest := by
  have hopen : isBrOpen ('<' :: b :: r :: (attrs ++ '>' :: rest)) = true := by
    simp [isBrOpen, hb, hr2]
  have hfind : findGt ((b :: r :: (attrs ++ '>' :: rest)).drop 2) = some rest := by
    have hdrop : (b :: r :: (attrs ++ '>' :: rest)).drop 2 = attrs ++ '>' :: rest := rfl
    rw [hdrop]
    exact findGt_append rest hgt
  rw [brScan, if_pos hopen]
  split
  · rename_i after hf
    rw [hfind] at hf
    injection hf with hf
    rw [hf]
  · rename_i hf
    rw [hfind] at hf
    exact Option.noConfusion hf

/-! ### Facts about `replaceCR` -/

theorem replaceCR_nil : replaceCR [] = [] := rfl

theorem replaceCR_cons (c : Char) (l : List Char) :
    replaceCR (c :: l) = (if c = '\r' then '\n' else c) :: replaceCR l := by
  simp [replaceCR]

theorem replaceCR_id {l : List Char} (h : '\r' ∉ l) : replaceCR l = l := by
  induction l with
  | nil => rfl
  | cons c rest ih =>
    have hc : ¬(c = '\r') := fun he => h (by rw [he]; exact List.mem_cons_self '\r' rest)
    rw [replaceCR_cons, if_neg hc, ih (fun hm => h (List.mem_cons_of_mem c hm))]

theorem replaceCR_no_cr (l : List Char) : '\r' ∉ replaceCR l := by
  unfold replaceCR
  intro hm
  rw [List.mem_map] at hm
  obtain ⟨x, _, hx⟩ := hm
  by_cases hxr : x = '\r'
  · rw [if_pos hxr] at hx
    exact absurd hx (by decide)
  · rw [if_neg hxr] at hx
    exact hxr hx

theorem leadsWith_replaceCR {q l : List Char} (hr : '\n' ∉ q)
    (h : leadsWith q (replaceCR l) = true) : leadsWith q l = true := by
  induction l generalizing q with
  | nil => simpa [replaceCR] using h
  | cons c rest ih =>
    cases q with
    | nil => simp [leadsWith]
    | cons x xs =>
      rw [replaceCR_cons] at h
      simp only [leadsWith, Bool.and_eq_true, beq_iff_eq] at h ⊢
      obtain ⟨h1, h2⟩ := h
      have hxc : x = c := by
        by_cases hcr : c = '\r'
        · rw [if_pos hcr] at h1
          exact absurd (by rw [h1]; exact List.mem_cons_self '\n' xs) hr
        · rwa [if_neg hcr] at h1
      exact ⟨hxc, ih (fun hm => hr (List.mem_cons_of_mem x hm)) h2⟩

theorem replaceCR_no_create {q : List Char} (hr : '\n' ∉ q) {l : List Char}
    (h : hasSeq q l = false) : hasSeq q (replaceCR l) = false := by
  obtain ⟨x, xs, rfl⟩ : ∃ x xs, q = x :: xs := by
    cases q with
    | nil => rw [hasSeq_nil_pat] at h; exact Bool.noConfusion h
    | cons x xs => exact ⟨x, xs, rfl⟩
  induction l with
  | nil => simpa [replaceCR] using h
  | cons c rest ih =>
    simp only [hasSeq, Bool.or_eq_false_iff] at h
    have hlead : leadsWith (x :: xs) (replaceCR (c :: rest)) = false := by
      cases hv : leadsWith (x :: xs) (replaceCR (c :: rest)) with
      | false => rfl
      | true =>
        exfalso
        have := leadsWith_replaceCR hr hv
        rw [this] at h
        exact Bool.noConfusion h.1
    rw [replaceCR_cons] at hlead ⊢
    simp only [hasSeq, Bool.or_eq_false_iff]
    exact ⟨hlead, ih h.2⟩

/-! ### The output of `normalizeDescText` is clean -/

theorem hasSeq_nil_false {p : Char} {ps : List Char} :
    hasSeq (p :: ps) ([] : List Char) = false := by
  simp [hasSeq, leadsWith]

theorem trim_nil : trim ([] : List Char) = [] := rfl

/-- After one pass of `normalizeDescText` the text contains no `&lt;` and no
`&gt;` entity, no carriage return, and is already trimmed.  (These are the
ingredients of idempotence that do not depend on the absence of `<br`.) -/
theorem normalize_clean (x : Option (List Char)) :
    hasSeq ['&', 'l', 't', ';'] (normalizeDescText x) = false ∧
    hasSeq ['&', 'g', 't', ';'] (normalizeDescText x) = false ∧
    '\r' ∉ normalizeDescText x ∧
    trim (normalizeDescText x) = normalizeDescText x := by
  have main : ∀ raw : List Char, raw ≠ [] →
      hasSeq ['&', 'l', 't', ';'] (normalizeDescText (some raw)) = false ∧
      hasSeq ['&', 'g', 't', ';'] (normalizeDescText (some raw)) = false ∧
      '\r' ∉ normalizeDescText (some raw) ∧
      trim (normalizeDescText (some raw)) = normalizeDescText (some raw) := by
    intro raw hraw
    have e : normalizeDescText (some raw) =
        trim (replaceCR (replaceCRLF (brScan (decodeGt (decodeLt raw))))) := by
      simp [normalizeDescText, hraw]
    have hlt1 : hasSeq ['&', 'l', 't', ';'] (decodeLt raw) = false :=
      replTok_no_self (by decide) raw
    have hgt2 : hasSeq ['&', 'g', 't', ';'] (decodeGt (decodeLt raw)) = false :=
      replTok_no_self (by decide) (decodeLt raw)
    have hlt2 : hasSeq ['&', 'l', 't', ';'] (decodeGt (decodeLt raw)) = false :=
      replTok_no_create (by decide) hlt1
    have hlt3 := brScan_no_create (by decide) hlt2
    have hgt3 := brScan_no_create (by decide) hgt2
    have hlt4 : hasSeq ['&', 'l', 't', ';']
        (replaceCRLF (brScan (decodeGt (decodeLt raw)))) = false :=
      replTok_no_create (by decide) hlt3
    have hgt4 : hasSeq ['&', 'g', 't', ';']
        (replaceCRLF (brScan (decodeGt (decodeLt raw)))) = false :=
      replTok_no_create (by decide) hgt3
    have hlt5 := replaceCR_no_create (by decide) hlt4
    have hgt5 := replaceCR_no_create (by decide) hgt4
    have hcr5 := replaceCR_no_cr (replaceCRLF (brScan (decodeGt (decodeLt raw))))
    refine ⟨?_, ?_, ?_, ?_⟩
    · rw [e]
      cases hv : hasSeq ['&', 'l', 't', ';']
          (trim (replaceCR (replaceCRLF (brScan (decodeGt (decodeLt raw)))))) with
      | false => rfl
      | true =>
        exfalso
        have := hasSeq_of_trim hv
        rw [this] at hlt5
        exact Bool.noConfusion hlt5
    · rw [e]
      cases hv : hasSeq ['&', 'g', 't', ';']
          (trim (replaceCR (replaceCRLF (brScan (decodeGt (decodeLt raw)))))) with
      | false => rfl
      | true =>
        exfalso
        have := hasSeq_of_trim hv
        rw [this] at hgt5
        exact Bool.noConfusion hgt5
    · rw [e]
      exact fun hm => hcr5 (mem_of_mem_trim hm)
    · rw [e]
      exact trim_idem _
  cases x with
  | none => exact ⟨hasSeq_nil_false, hasSeq_nil_false, by simp [normalizeDescText],
      by simp [normalizeDescText, trim_nil]⟩
  | some raw =>
    by_cases hraw : raw = []
    · subst hraw
      refine ⟨?_, ?_, ?_, ?_⟩ <;>
        simp [normalizeDescText, hasSeq_nil_false, trim_nil]
    · exact main raw hraw

/-! ### `descToLines` as a `filterMap` -/

theorem foldl_push_eq_filterMap (f : List Char → Option (List Char)) :
    ∀ (l : List (List Char)) (init : List (List Char)),
      l.foldl (fun lines line =>
        match f line with
        | none => lines
        | some cleaned => lines ++ [cleaned]) init = init ++ l.filterMap f := by
  intro l
  induction l with
  | nil => intro init; simp
  | cons a t ih =>
    intro init
    cases hf : f a with
    | none => simp [List.foldl_cons, hf, List.filterMap_cons, ih]
    | some cleaned => simp [List.foldl_cons, hf, List.filterMap_cons, ih]

theorem descToLines_some_eq (d : List Char) :
    descToLines (some d) = ((splitNL d).map trim).filterMap procLine := by
  unfold descToLines
  exact (foldl_push_eq_filterMap procLine _ []).trans (by simp)

/-! ### `foldl` of additions -/

theorem foldl_add_map {α : Type} (f : α → ℚ) :
    ∀ (l : List α) (init : ℚ),
      l.foldl (fun acc x => acc + f x) init = init + (l.map f).sum := by
  intro l
  induction l with
  | nil => intro init; simp
  | cons a t ih =>
    intro init
    simp only [List.foldl_cons, List.map_cons, List.sum_cons, ih]
    ring

/-! ### Shared facts about `paymentIntegrityStatus` -/

theorem pis_balance (g dp1 t2 t3 full : ℚ) :
    (paymentIntegrityStatus g dp1 t2 t3 full).balance
      = (⌊g⌋ : ℚ) - (dp1 + t2 + t3 + full) := by
  simp only [paymentIntegrityStatus]
  split_ifs <;> rfl

theorem pis_status_info {g dp1 t2 t3 full : ℚ} (hg : g ≤ 0) :
    (paymentIntegrityStatus g dp1 t2 t3 full).status = PayStatus.INFO := by
  simp only [paymentIntegrityStatus]
  rw [if_pos hg]

theorem pis_status_balanced {g dp1 t2 t3 full : ℚ} (hg : 0 < g)
    (hb : (⌊g⌋ : ℚ) - (dp1 + t2 + t3 + full) = 0) :
    (paymentIntegrityStatus g dp1 t2 t3 full).status = PayStatus.BALANCED := by
  simp only [paymentIntegrityStatus]
  rw [if_neg (not_le.mpr hg), if_pos hb]

theorem pis_status_unalloc {g dp1 t2 t3 full : ℚ} (hg : 0 < g)
    (hb : 0 < (⌊g⌋ : ℚ) - (dp1 + t2 + t3 + full)) :
    (paymentIntegrityStatus g dp1 t2 t3 full).status = PayStatus.UNALLOCATED := by
  simp only [paymentIntegrityStatus]
  rw [if_neg (not_le.mpr hg), if_neg (show ¬((⌊g⌋ : ℚ) - (dp1 + t2 + t3 + full) = 0)
    from fun he => absurd (he ▸ hb) (lt_irrefl 0)), if_pos hb]

theorem pis_status_over {g dp1 t2 t3 full : ℚ} (hg : 0 < g)
    (hb : (⌊g⌋ : ℚ) - (dp1 + t2 + t3 + full) < 0) :
    (paymentIntegrityStatus g dp1 t2 t3 full).status = PayStatus.OVER := by
  simp only [paymentIntegrityStatus]
  rw [if_neg (not_le.mpr hg), if_neg (show ¬((⌊g⌋ : ℚ) - (dp1 + t2 + t3 + full) = 0)
    from fun he => absurd (he ▸ hb) (lt_irrefl 0)),
    if_neg (not_lt.mpr hb.le)]

/-! ### Claims -/

/-- C1: for every list of line items and every cashback number,
`calculateTotals` returns a subtotal equal to the sum over the items of
`price * max(1, qty)` and a grand total equal to
`max(0, subtotal - max(0, cashback))`; consequently the grand total is
non-negative for every input, including negative or oversized cashback. -/
theorem c1_calculateTotals_spec (items : List InvoiceItem) (cashback : ℚ) :
    (calculateTotals items cashback).subtotal
        = (items.map (fun item => item.price * max 1 item.qty)).sum
    ∧ (calculateTotals items cashback).grandTotal
        = max 0 ((calculateTotals items cashback).subtotal - max 0 cashback)
    ∧ 0 ≤ (calculateTotals items cashback).grandTotal := by
  refine ⟨?_, rfl, le_max_left 0 _⟩
  simp [calculateTotals, foldl_add_map]

/-- C2: for every input, the balance returned by `paymentIntegrityStatus`
is the floor of the grand total minus the raw (unfloored) sum
`dp1 + t2 + t3 + full` — the floor is applied to the grand total before
subtracting, not to the sum of the slots and not to the difference: on the
separating instance `(100.9, 100.5, 0, 0, 0)` the returned balance is
`-1/2`, while flooring the difference or flooring the sum would give `0`.
In particular a grand total of `100.9` together with any schedule summing to
exactly `100` yields balance `0` and status `BALANCED`. -/
theorem c2_pis_floor_then_subtract (g dp1 t2 t3 full : ℚ) :
    (paymentIntegrityStatus g dp1 t2 t3 full).balance
        = (⌊g⌋ : ℚ) - (dp1 + t2 + t3 + full)
    ∧ (dp1 + t2 + t3 + full = 100 →
        (paymentIntegrityStatus (100.9 : ℚ) dp1 t2 t3 full).status = PayStatus.BALANCED
        ∧ (paymentIntegrityStatus (100.9 : ℚ) dp1 t2 t3 full).balance = 0)
    ∧ (paymentIntegrityStatus (100.9 : ℚ) (100.5 : ℚ) 0 0 0).balance = -(1 / 2)
    ∧ (⌊(100.9 : ℚ) - ((100.5 : ℚ) + 0 + 0 + 0)⌋ : ℚ) ≠ -(1 / 2)
    ∧ ((⌊(100.9 : ℚ)⌋ : ℚ) - (⌊(100.5 : ℚ) + 0 + 0 + 0⌋ : ℚ)) ≠ -(1 / 2) := by
  refine ⟨pis_balance g dp1 t2 t3 full, fun h => ?_, ?_, by norm_num, by norm_num⟩
  · have hb0 : (⌊(100.9 : ℚ)⌋ : ℚ) - (dp1 + t2 + t3 + full) = 0 := by
      rw [h]
      norm_num
    refine ⟨pis_status_balanced (by norm_num) hb0, ?_⟩
    rw [pis_balance]
    exact hb0
  · rw [pis_balance]
    norm_num

theorem c2_witness :
    (paymentIntegrityStatus (100.9 : ℚ) 25 25 25 25).balance
        = (⌊(100.9 : ℚ)⌋ : ℚ) - (25 + 25 + 25 + 25)
    ∧ (paymentIntegrityStatus (100.9 : ℚ) 25 25 25 25).status = PayStatus.BALANCED
    ∧ (paymentIntegrityStatus (100.9 : ℚ) 25 25 25 25).balance = 0 :=
  ⟨(c2_pis_floor_then_subtract (100.9 : ℚ) 25 25 25 25).1,
   (c2_pis_floor_then_subtract (100.9 : ℚ) 25 25 25 25).2.1 (by norm_num)⟩

/-- C3: `paymentIntegrityStatus` classifies first-match-wins: a non-positive
grand total yields `INFO` regardless of the schedule (balance still returned
as computed); for a positive grand total exactly one of `BALANCED`,
`UNALLOCATED`, `OVER` is returned, and the balance is zero, strictly
positive, resp. strictly negative exactly in those cases. -/
theorem c3_pis_classification (g dp1 t2 t3 full : ℚ) :
    (g ≤ 0 → (paymentIntegrityStatus g dp1 t2 t3 full).status = PayStatus.INFO
      ∧ (paymentIntegrityStatus g dp1 t2 t3 full).balance
          = (⌊g⌋ : ℚ) - (dp1 + t2 + t3 + full))
    ∧ (0 < g →
        ((paymentIntegrityStatus g dp1 t2 t3 full).status = PayStatus.BALANCED
            ↔ (paymentIntegrityStatus g dp1 t2 t3 full).balance = 0)
        ∧ ((paymentIntegrityStatus g dp1 t2 t3 full).status = PayStatus.UNALLOCATED
            ↔ 0 < (paymentIntegrityStatus g dp1 t2 t3 full).balance)
        ∧ ((paymentIntegrityStatus g dp1 t2 t3 full).status = PayStatus.OVER
            ↔ (paymentIntegrityStatus g dp1 t2 t3 full).balance < 0)) := by
  constructor
  · intro hg
    exact ⟨pis_status_info hg, pis_balance g dp1 t2 t3 full⟩
  · intro hg
    rw [pis_balance g dp1 t2 t3 full]
    rcases lt_trichotomy ((⌊g⌋ : ℚ) - (dp1 + t2 + t3 + full)) 0 with hb | hb | hb
    · rw [pis_status_over hg hb]
      exact ⟨⟨fun h => PayStatus.noConfusion h,
              fun h => absurd (h ▸ hb) (lt_irrefl 0)⟩,
             ⟨fun h => PayStatus.noConfusion h,
              fun h => absurd h (not_lt.mpr hb.le)⟩,
             ⟨fun _ => hb, fun _ => rfl⟩⟩
    · rw [pis_status_balanced hg hb]
      exact ⟨⟨fun _ => hb, fun _ => rfl⟩,
             ⟨fun h => PayStatus.noConfusion h,
              fun h => absurd (hb ▸ h) (lt_irrefl 0)⟩,
             ⟨fun h => PayStatus.noConfusion h,
              fun h => absurd (hb ▸ h) (lt_irrefl 0)⟩⟩
    · rw [pis_status_unalloc hg hb]
      exact ⟨⟨fun h => PayStatus.noConfusion h,
              fun h => absurd (h ▸ hb) (lt_irrefl 0)⟩,
             ⟨fun _ => hb, fun _ => rfl⟩,
             ⟨fun h => PayStatus.noConfusion h,
              fun h => absurd hb (not_lt.mpr h.le)⟩⟩

theorem c3_witness :
    (paymentIntegrityStatus 1000 250 250 250 250).status = PayStatus.BALANCED
    ∧ (paymentIntegrityStatus 1000 100 100 100 100).status = PayStatus.UNALLOCATED
    ∧ (paymentIntegrityStatus 1000 300 300 300 300).status = PayStatus.OVER
    ∧ (paymentIntegrityStatus 0 0 0 0 0).status = PayStatus.INFO := by
  refine ⟨((c3_pis_classification 1000 250 250 250 250).2 (by norm_num)).1.mpr ?_,
          ((c3_pis_classification 1000 100 100 100 100).2 (by norm_num)).2.1.mpr ?_,
          ((c3_pis_classification 1000 300 300 300 300).2 (by norm_num)).2.2.mpr ?_,
          ((c3_pis_classification 0 0 0 0 0).1 (by norm_num)).1⟩
  · rw [pis_balance]
    norm_num
  · rw [pis_balance]
    norm_num
  · rw [pis_balance]
    norm_num

/-- C4 (counterexample): the claim that no returned entry begins with a
bullet marker fails on the code: only one leading marker is stripped, so the
input `--A` produces the entry `-A`, whose first character is `'-'`. -/
theorem c4_counterexample :
    descToLines (some ("--A".toList)) = ["-A".toList]
    ∧ ¬(∀ e ∈ descToLines (some ("--A".toList)),
          ∀ m ∈ ['-', '•', '·'], e.head? ≠ some m) := by
  decide

/-- C4 (amended): every entry returned by `descToLines` is non-empty and not
whitespace-only; a single leading bullet marker is stripped, but an entry may
still begin with a marker character when the trimmed source segment carried a
second marker after the first. -/
theorem c4_amended_entries (desc : Option (List Char)) (e : List Char)
    (h : e ∈ descToLines desc) :
    e ≠ [] ∧ ¬(∀ c ∈ e, jsIsWS c = true) := by
  have h' : ∃ line, procLine line = some e := by
    cases desc with
    | none =>
      rw [show descToLines none = [] from rfl] at h
      exact absurd h (List.not_mem_nil e)
    | some d =>
      rw [descToLines_some_eq] at h
      obtain ⟨line, _, hp⟩ := List.mem_filterMap.mp h
      exact ⟨line, hp⟩
  obtain ⟨line, hp⟩ := h'
  simp only [procLine] at hp
  by_cases h1 : line = []
  · rw [if_pos h1] at hp
    exact Option.noConfusion hp
  · rw [if_neg h1] at hp
    by_cases h2 : trim (stripBullet line) = []
    · rw [if_pos h2] at hp
      exact Option.noConfusion hp
    · rw [if_neg h2] at hp
      injection hp with hp
      subst hp
      obtain ⟨c, hc, hcws⟩ := trim_has_non_ws h2
      refine ⟨h2, fun hall => ?_⟩
      have hct := hall c hc
      rw [hcws] at hct
      exact Bool.noConfusion hct

theorem c4_amended_witness :
    "A".toList ≠ [] ∧ ¬(∀ c ∈ "A".toList, jsIsWS c = true) :=
  c4_amended_entries (some ("- A".toList)) ("A".toList) (by decide)

/-- C5: `normalizeDescText` first decodes `&lt;`/`&gt;`, then replaces each
`<br`-opener (case-insensitive) together with everything up to and including
the next `'>'` by one newline, then converts `\r\n` and bare `\r` to `\n`,
and finally trims; `"Line 1<br>Line 2"` becomes `"Line 1\nLine 2"`, and
missing or empty input yields the empty string. -/
theorem c5_normalizeDescText_spec :
    (∀ (b r : Char) (attrs rest : List Char), b.toLower = 'b' → r.toLower = 'r' →
        '>' ∉ attrs →
        brScan ('<' :: b :: r :: (attrs ++ '>' :: rest)) = '\n' :: brScan rest)
    ∧ (∀ raw : List Char, raw ≠ [] → normalizeDescText (some raw)
        = trim (replaceCR (replaceCRLF (brScan (decodeGt (decodeLt raw))))))
    ∧ (∀ l : List Char, '\r' ∉ replaceCR (replaceCRLF l))
    ∧ normalizeDescText (some ("Line 1<br>Line 2".toList)) = "Line 1\nLine 2".toList
    ∧ normalizeDescText none = []
    ∧ normalizeDescText (some ("".toList)) = [] := by
  refine ⟨fun b r attrs rest hb hr2 hgt => brScan_br attrs rest hb hr2 hgt,
          fun raw hraw => by simp [normalizeDescText, hraw],
          fun l => replaceCR_no_cr (replaceCRLF l),
          ?_, rfl, rfl⟩
  simp +decide [normalizeDescText, decodeLt, decodeGt, replaceCRLF, replTok,
    brScan, isBrOpen, findGt, leadsWith]

theorem c5_witness :
    brScan ('<' :: 'b' :: 'r' :: (['/'] ++ '>' :: "x".toList)) = '\n' :: brScan ("x".toList)
    ∧ normalizeDescText (some ("a".toList))
        = trim (replaceCR (replaceCRLF (brScan (decodeGt (decodeLt ("a".toList)))))) :=
  ⟨c5_normalizeDescText_spec.1 'b' 'r' ['/'] ("x".toList) rfl rfl (by decide),
   c5_normalizeDescText_spec.2.1 ("a".toList) (by decide)⟩

/-- C6: a `<br` opener with no subsequent `'>'` passes through literally
(fail-open; here in the strong form: when the text has no `'>'` at all the
scanner is the identity), and the core functions are total, returning plain
values on adversarial inputs (negative price, quantity and cashback,
non-integral negative grand total, bullet-only description lines). -/
theorem c6_fail_open_total :
    (∀ l : List Char, '>' ∉ l → brScan l = l)
    ∧ normalizeDescText (some ("a<br".toList)) = "a<br".toList
    ∧ calculateTotals [⟨"i".toList, "r1".toList, "d".toList, none, -5, -3⟩] (-7)
        = ⟨-5, 0⟩
    ∧ paymentIntegrityStatus (-3.5) (-1) 2 0 1
        = ⟨PayStatus.INFO, "Add items to cart to calculate payments.".toList, -6⟩
    ∧ descToLines (some ("- \n\n".toList)) = [] := by
  refine ⟨fun l hl => brScan_id_of_no_gt hl, ?_, ?_, ?_, by decide⟩
  · simp +decide [normalizeDescText, decodeLt, decodeGt, replaceCRLF, replTok,
      brScan, isBrOpen, findGt, leadsWith]
  · norm_num [calculateTotals]
  · norm_num [paymentIntegrityStatus]

theorem c6_witness : brScan ("ab".toList) = "ab".toList :=
  c6_fail_open_total.1 ("ab".toList) (by decide)

/-- C7: `normalizeDescText` is idempotent on its own output whenever that
output contains no remaining case-insensitive `<br` opener. -/
theorem c7_normalize_idempotent (x : Option (List Char))
    (h : hasBr (normalizeDescText x) = false) :
    normalizeDescText (some (normalizeDescText x)) = normalizeDescText x := by
  obtain ⟨hlt, hgt, hcr, htrim⟩ := normalize_clean x
  set y := normalizeDescText x with hy
  by_cases hynil : y = []
  · rw [hynil]
    rfl
  · have e : normalizeDescText (some y)
        = trim (replaceCR (replaceCRLF (brScan (decodeGt (decodeLt y))))) := by
      simp [normalizeDescText, hynil]
    rw [e]
    rw [show decodeLt y = y from replTok_id '<' hlt]
    rw [show decodeGt y = y from replTok_id '>' hgt]
    rw [brScan_id_of_no_br h]
    rw [show replaceCRLF y = y from replTok_id '\n' (hasSeq_false_of_not_mem hcr)]
    rw [replaceCR_id hcr]
    exact htrim

theorem c7_witness :
    normalizeDescText (some (normalizeDescText (some ("a<br>b".toList))))
      = normalizeDescText (some ("a<br>b".toList)) :=
  c7_normalize_idempotent (some ("a<br>b".toList))
    (by simp +decide [normalizeDescText, decodeLt, decodeGt, replaceCRLF, replTok,
      brScan, isBrOpen, findGt, leadsWith, hasBr])

/-- C8: `descToLines` splits on `'\n'`, trims each segment, drops segments
that trim to nothing, strips at most one leading bullet marker (`-`, `•`,
`·`) plus the whitespace after it from the start of the trimmed segment,
trims again, drops entries that became empty, and keeps surviving entries in
their original order (the `filterMap` form); empty and missing input yield
the empty sequence. -/
theorem c8_descToLines_pipeline :
    (∀ d : List Char, descToLines (some d)
        = ((splitNL d).map trim).filterMap procLine)
    ∧ (∀ line : List Char, procLine line
        = if line = [] then none
          else if trim (stripBullet line) = [] then none
          else some (trim (stripBullet line)))
    ∧ (∀ (c : Char) (rest : List Char), stripBullet (c :: rest)
        = if c = '-' ∨ c = '•' ∨ c = '·' then rest.dropWhile jsIsWS else c :: rest)
    ∧ descToLines none = [] ∧ descToLines (some []) = []
    ∧ descToLines (some ("- A\n- B".toList)) = ["A".toList, "B".toList] := by
  exact ⟨descToLines_some_eq, fun line => rfl, fun c rest => rfl, rfl, rfl, by decide⟩

/-- C9: the subtotal of `calculateTotals` is invariant under permutation of
the item list, and an item with non-positive quantity contributes to the
subtotal exactly as if its quantity were `1`. -/
theorem c9_subtotal_perm_and_clamp (items items' : List InvoiceItem)
    (cashback : ℚ) (hperm : items.Perm items')
    (pre post : List InvoiceItem) (it : InvoiceItem) (hq : it.qty ≤ 0)
    (cashback2 : ℚ) :
    (calculateTotals items cashback).subtotal
        = (calculateTotals items' cashback).subtotal
    ∧ calculateTotals (pre ++ it :: post) cashback2
        = calculateTotals (pre ++ { it with qty := 1 } :: post) cashback2 := by
  constructor
  · have h1 : (calculateTotals items cashback).subtotal
        = (items.map (fun item => item.price * max 1 item.qty)).sum := by
      simp [calculateTotals, foldl_add_map]
    have h2 : (calculateTotals items' cashback).subtotal
        = (items'.map (fun item => item.price * max 1 item.qty)).sum := by
      simp [calculateTotals, foldl_add_map]
    rw [h1, h2]
    exact List.Perm.sum_eq (hperm.map _)
  · have hmax : max (1 : ℚ) it.qty = 1 := max_eq_left (hq.trans zero_le_one)
    have hsub : ∀ j : InvoiceItem, (pre ++ j :: post).foldl
        (fun acc item => acc + item.price * max 1 item.qty) 0
        = 0 + ((pre.map fun item => item.price * max 1 item.qty).sum
            + (j.price * max 1 j.qty
              + (post.map fun item => item.price * max 1 item.qty).sum)) := by
      intro j
      rw [foldl_add_map]
      simp [List.map_append, List.sum_append]
    unfold calculateTotals
    rw [hsub it, hsub { it with qty := 1 }]
    simp [hmax]

theorem c9_witness :
    (calculateTotals [⟨"a".toList, "x1".toList, [], none, 5, 2⟩,
        ⟨"b".toList, "x2".toList, [], none, 7, 1⟩] 0).subtotal
      = (calculateTotals [⟨"b".toList, "x2".toList, [], none, 7, 1⟩,
          ⟨"a".toList, "x1".toList, [], none, 5, 2⟩] 0).subtotal
    ∧ calculateTotals [⟨"c".toList, "x3".toList, [], none, 4, -2⟩] 0
        = calculateTotals [⟨"c".toList, "x3".toList, [], none, 4, 1⟩] 0 :=
  c9_subtotal_perm_and_clamp _ _ 0 (List.Perm.swap _ _ _) [] []
    ⟨"c".toList, "x3".toList, [], none, 4, -2⟩ (by norm_num) 0

/-- C10: any tag whose name merely begins with the two letters `br`
(case-insensitive) is treated as a line break: the whole run from `<br` to
the next `'>'` is replaced by a single newline, so `"a<branch>b"` normalizes
to `"a\nb"`. -/
theorem c10_br_name_confusion :
    normalizeDescText (some ("a<branch>b".toList)) = "a\nb".toList
    ∧ normalizeDescText (some ("a<BRanch class=x>b".toList)) = "a\nb".toList
    ∧ brScan ("a<branch>b".toList) = "a\nb".toList := by
  refine ⟨?_, ?_, ?_⟩ <;>
    simp +decide [normalizeDescText, decodeLt, decodeGt, replaceCRLF, replTok,
      brScan, isBrOpen, findGt, leadsWith]

end Invoice
